import Mathlib

/-
Verification of the entry-merging and derived-metrics core of the
diet/fitness tracker (src/app.js).

Modelling conventions (shallow embedding):
- JS numbers are modelled as rationals (ℚ).  JSON.parse never produces NaN
  or undefined, and the app-level checks `typeof x === "number" && !isNaN(x)`
  are modelled as matching on `Option ℚ` / the `num` constructor.
- Host functions (JSON.parse, String(n), padStart, split, Date) are embedded
  as executable Lean functions on the JSON value type `JVal`, character
  lists and a calendar-date triple `JsDate`.
- The claims quantify over stores whose entries have the record shape the
  app itself writes (string date, number-or-null weight/duration, string
  activity/notes); exotic shapes reachable only through hand-corrupted
  storage are outside the embedding except where a claim is itself about
  corrupt storage (loadEntries/loadSettings, which work on raw `JVal`).
-/

namespace DietApp

/-- JSON-representable JavaScript values, the output type of JSON.parse
(no NaN, no undefined; `undefined` field reads are modelled by `Option JVal`). -/
inductive JVal where
  | null
  | bool (b : Bool)
  | num (q : ℚ)
  | str (s : String)
  | arr (elems : List JVal)
  | obj (fields : List (String × JVal))

/-- JavaScript truthiness of a JSON value (NaN is excluded from the model). -/
def JVal.truthy : JVal → Bool
  | .null => false
  | .bool b => b
  | .num q => decide (q ≠ 0)
  | .str s => decide (s ≠ "")
  | .arr _ => true
  | .obj _ => true

/-- Property read `v.k` on a JSON value; `none` models `undefined`. -/
def JVal.getField : JVal → String → Option JVal
  | .obj fields, k => (fields.find? (fun p => p.1 == k)).map Prod.snd
  | _, _ => none

/-! ### Decimal digit strings (embedding of JS String(n) and Number-style digit parsing) -/

/-- Numeric value of a digit character. -/
def charVal (c : Char) : ℕ := c.toNat - 48

/-- Value of a left-to-right digit-character list, as JS Number reads digits. -/
def digitsToNat (l : List Char) : ℕ := l.foldl (fun a c => 10 * a + charVal c) 0

/-- Decimal digits of a natural number, most significant first; fuel-based so
that it is structurally recursive and reduces inside the kernel. -/
def natCharsAux : ℕ → ℕ → List Char
  | 0, _ => []
  | fuel + 1, n =>
      if n < 10 then [Nat.digitChar n]
      else natCharsAux fuel (n / 10) ++ [Nat.digitChar (n % 10)]

/-- Decimal digits of a natural number, most significant first. -/
def natChars (n : ℕ) : List Char := natCharsAux (n + 1) n

/-- Embedding of JS String(n) for a natural number. -/
def natToString (n : ℕ) : String := ⟨natChars n⟩

/-- Embedding of JS String(z) for an integer. -/
def intToString (z : ℤ) : String :=
  if z < 0 then "-" ++ natToString (-z).toNat else natToString z.toNat

/-- Embedding of String(n).padStart(2, "0") as used for month/day fields. -/
def pad2 (n : ℕ) : String :=
  if (natToString n).length < 2 then "0" ++ natToString n else natToString n

theorem natCharsAux_eq_of_lt :
    ∀ (f g n : ℕ), n < f → n < g → natCharsAux f n = natCharsAux g n := by
  intro f
  induction f with
  | zero => intro g n h; omega
  | succ f ih =>
      intro g n hf hg
      cases g with
      | zero => omega
      | succ g =>
          show natCharsAux (f + 1) n = natCharsAux (g + 1) n
          rw [natCharsAux, natCharsAux]
          by_cases h10 : n < 10
          · simp [h10]
          · simp only [h10, if_false]
            rw [ih g (n / 10) (by omega) (by omega)]

theorem natChars_eq (n : ℕ) :
    natChars n =
      if n < 10 then [Nat.digitChar n] else natChars (n / 10) ++ [Nat.digitChar (n % 10)] := by
  show natCharsAux (n + 1) n = _
  rw [natCharsAux]
  by_cases h10 : n < 10
  · simp [h10]
  · simp only [h10, if_false]
    rw [natCharsAux_eq_of_lt n (n / 10 + 1) (n / 10) (by omega) (by omega)]
    rfl

theorem digitsToNat_concat (l : List Char) (c : Char) :
    digitsToNat (l ++ [c]) = 10 * digitsToNat l + charVal c := by
  simp [digitsToNat, List.foldl_concat]

theorem charVal_digitChar : ∀ k, k < 10 → charVal (Nat.digitChar k) = k := by decide

theorem isDigit_digitChar : ∀ k, k < 10 → (Nat.digitChar k).isDigit = true := by decide

theorem digitsToNat_natChars (n : ℕ) : digitsToNat (natChars n) = n := by
  induction n using Nat.strong_induction_on with
  | _ n ih =>
      rw [natChars_eq]
      by_cases h10 : n < 10
      · simp only [h10, if_true]
        show digitsToNat ([] ++ [Nat.digitChar n]) = n
        rw [digitsToNat_concat, charVal_digitChar n h10]
        have h0 : digitsToNat [] = 0 := rfl
        omega
      · simp only [h10, if_false]
        rw [digitsToNat_concat, ih (n / 10) (by omega),
          charVal_digitChar (n % 10) (by omega)]
        omega

theorem natChars_isDigit (n : ℕ) : ∀ c ∈ natChars n, c.isDigit = true := by
  induction n using Nat.strong_induction_on with
  | _ n ih =>
      rw [natChars_eq]
      by_cases h10 : n < 10
      · simp only [h10, if_true, List.mem_singleton]
        intro c hc
        subst hc
        exact isDigit_digitChar n h10
      · simp only [h10, if_false, List.mem_append, List.mem_singleton]
        intro c hc
        rcases hc with hc | hc
        · exact ih (n / 10) (by omega) c hc
        · subst hc
          exact isDigit_digitChar (n % 10) (by omega)

theorem natChars_ne_nil (n : ℕ) : natChars n ≠ [] := by
  rw [natChars_eq]
  by_cases h10 : n < 10 <;> simp [h10]

theorem natToString_inj {m n : ℕ} (h : natToString m = natToString n) : m = n := by
  have hdata : natChars m = natChars n := congrArg String.data h
  have := digitsToNat_natChars m
  rw [hdata, digitsToNat_natChars] at this
  omega

theorem pad2_data (n : ℕ) :
    (pad2 n).data = '0' :: natChars n ∨ (pad2 n).data = natChars n := by
  unfold pad2
  split
  · left
    have h0 : ("0" : String).data = ['0'] := rfl
    simp [String.data_append, natToString, h0]
  · right
    rfl

theorem digitsToNat_pad2 (n : ℕ) : digitsToNat (pad2 n).data = n := by
  rcases pad2_data n with h | h <;> rw [h]
  · show List.foldl (fun a c => 10 * a + charVal c) 0 ('0' :: natChars n) = n
    have : (10 * 0 + charVal '0') = 0 := by decide
    simp only [List.foldl_cons, this]
    exact digitsToNat_natChars n
  · exact digitsToNat_natChars n

theorem pad2_isDigit (n : ℕ) : ∀ c ∈ (pad2 n).data, c.isDigit = true := by
  rcases pad2_data n with h | h <;> rw [h]
  · intro c hc
    rcases List.mem_cons.mp hc with hc | hc
    · subst hc; decide
    · exact natChars_isDigit n c hc
  · exact natChars_isDigit n

theorem isDigit_ne_dash {c : Char} (h : c.isDigit = true) : c ≠ '-' := by
  intro hc
  subst hc
  simp at h

/-! ### Calendar dates (embedding of the JS Date usage in the source) -/

/-- A calendar date as the app date helpers view it: year, calendar month
(1-12 when in range) and day of month.  JS Date objects always hold a
normalized date; parsing of the app canonical YYYY-MM-DD strings never
needs normalization, so none is modelled. -/
structure JsDate where
  year : ℤ
  month : ℕ
  day : ℕ
deriving DecidableEq

/-- formatDateToYMD (source lines 83-88). -/
def formatDateToYMD (d : JsDate) : String :=
  intToString d.year ++ "-" ++ pad2 d.month ++ "-" ++ pad2 d.day

/-- Split of a character list on the dash character, embedding of
String.prototype.split("-") for this single-character separator. -/
def splitOnDash : List Char → List (List Char)
  | [] => [[]]
  | c :: rest =>
      if c = '-' then [] :: splitOnDash rest
      else
        match splitOnDash rest with
        | [] => [[c]]
        | p :: ps => (c :: p) :: ps

/-- Number(yearPiece) fed to the JS Date constructor, which maps two-digit
years 0-99 to 1900+y. -/
def yearAdjust (n : ℕ) : ℤ := if n ≤ 99 then (n : ℤ) + 1900 else (n : ℤ)

/-- Core of dateFromYMD (source lines 90-94): split on "-", Number each piece,
build the date.  Missing pieces read as 0 (they produce invalid JS dates; all
claims restrict to canonical date strings where the quirks are immaterial). -/
def parseYmd (s : String) : JsDate :=
  ⟨yearAdjust (digitsToNat ((splitOnDash s.data).getD 0 [])),
    digitsToNat ((splitOnDash s.data).getD 1 []),
    digitsToNat ((splitOnDash s.data).getD 2 [])⟩

/-- dateFromYMD (source lines 90-94): a falsy (empty) string yields the
current date. -/
def dateFromYMD (now : JsDate) (s : String) : JsDate :=
  if s = "" then now else parseYmd s

def isLeapYear (y : ℤ) : Bool :=
  decide ((y % 4 = 0 ∧ y % 100 ≠ 0) ∨ y % 400 = 0)

/-- Days in a calendar month, as the JS Date normalization uses. -/
def daysInMonth (y : ℤ) (m : ℕ) : ℕ :=
  if m = 2 then (if isLeapYear y then 29 else 28)
  else if m = 4 ∨ m = 6 ∨ m = 9 ∨ m = 11 then 30
  else 31

/-- Embedding of d.setDate(d.getDate() - 1) on an in-range date: the previous
calendar day. -/
def prevDay (d : JsDate) : JsDate :=
  if 1 < d.day then ⟨d.year, d.month, d.day - 1⟩
  else if 1 < d.month then ⟨d.year, d.month - 1, daysInMonth d.year (d.month - 1)⟩
  else ⟨d.year - 1, 12, 31⟩

/-- Timestamp comparison of two in-range dates is lexicographic on
(year, month, day); this embeds the numeric comparator subtractions on Date
objects used by the sorts. -/
def jsDateLe (a b : JsDate) : Bool :=
  decide (a.year < b.year ∨ (a.year = b.year ∧
    (a.month < b.month ∨ (a.month = b.month ∧ a.day ≤ b.day))))

/-- Strict version of the timestamp comparison. -/
def jsDateLt (a b : JsDate) : Bool :=
  decide (a.year < b.year ∨ (a.year = b.year ∧
    (a.month < b.month ∨ (a.month = b.month ∧ a.day < b.day))))

theorem jsDateLe_trans {a b c : JsDate} (hab : jsDateLe a b = true)
    (hbc : jsDateLe b c = true) : jsDateLe a c = true := by
  simp only [jsDateLe, decide_eq_true_eq] at *
  omega

theorem jsDateLe_total (a b : JsDate) : (jsDateLe a b || jsDateLe b a) = true := by
  simp only [jsDateLe, Bool.or_eq_true, decide_eq_true_eq]
  omega

theorem jsDateLt_trans {a b c : JsDate} (hab : jsDateLt a b = true)
    (hbc : jsDateLt b c = true) : jsDateLt a c = true := by
  simp only [jsDateLt, decide_eq_true_eq] at *
  omega

theorem jsDateLt_irrefl (a : JsDate) : jsDateLt a a = false := by
  simp only [jsDateLt, decide_eq_false_iff_not]
  omega

theorem jsDateLt_asymm {a b : JsDate} (h : jsDateLt a b = true) : a ≠ b := by
  intro hab
  subst hab
  rw [jsDateLt_irrefl] at h
  exact Bool.false_ne_true h

theorem jsDateLe_antisymm {a b : JsDate} (hab : jsDateLe a b = true)
    (hba : jsDateLe b a = true) : a = b := by
  simp only [jsDateLe, decide_eq_true_eq] at hab hba
  have h1 : a.year = b.year := by omega
  have h2 : a.month = b.month := by omega
  have h3 : a.day = b.day := by omega
  cases a; cases b
  simp_all

theorem jsDateLt_le {a b : JsDate} (h : jsDateLt a b = true) : jsDateLe a b = true := by
  simp only [jsDateLt, jsDateLe, decide_eq_true_eq] at *
  omega

theorem daysInMonth_pos (y : ℤ) (m : ℕ) : 1 ≤ daysInMonth y m := by
  unfold daysInMonth
  split
  · split <;> omega
  · split <;> omega

theorem prevDay_lt (d : JsDate) : jsDateLt (prevDay d) d = true := by
  unfold prevDay
  split
  · simp [jsDateLt] <;> omega
  · split
    · simp [jsDateLt] <;> omega
    · simp [jsDateLt] <;> omega

theorem splitOnDash_ne_nil (l : List Char) : splitOnDash l ≠ [] := by
  cases l with
  | nil => simp [splitOnDash]
  | cons c rest =>
      rw [splitOnDash]
      split
      · simp
      · split <;> simp

theorem splitOnDash_append_dash (a r : List Char) (ha : ∀ c ∈ a, c ≠ '-') :
    splitOnDash (a ++ '-' :: r) = a :: splitOnDash r := by
  induction a with
  | nil => simp [splitOnDash]
  | cons c a ih =>
      have hc : c ≠ '-' := ha c (List.mem_cons_self c a)
      have ha2 : ∀ x ∈ a, x ≠ '-' := fun x hx => ha x (List.mem_cons_of_mem c hx)
      rw [List.cons_append, splitOnDash, if_neg hc, ih ha2]

theorem splitOnDash_dashFree (a : List Char) (ha : ∀ c ∈ a, c ≠ '-') :
    splitOnDash a = [a] := by
  induction a with
  | nil => rfl
  | cons c a ih =>
      have hc : c ≠ '-' := ha c (List.mem_cons_self c a)
      have ha2 : ∀ x ∈ a, x ≠ '-' := fun x hx => ha x (List.mem_cons_of_mem c hx)
      rw [splitOnDash, if_neg hc, ih ha2]

theorem intToString_nonneg {z : ℤ} (h : 0 ≤ z) : intToString z = natToString z.toNat := by
  unfold intToString
  rw [if_neg (by omega)]

theorem format_data (d : JsDate) :
    (formatDateToYMD d).data =
      (intToString d.year).data ++ '-' :: ((pad2 d.month).data ++ '-' :: (pad2 d.day).data) := by
  have hdash : ("-" : String).data = ['-'] := rfl
  simp [formatDateToYMD, String.data_append, hdash]

theorem splitOnDash_format {d : JsDate} (h : 0 ≤ d.year) :
    splitOnDash (formatDateToYMD d).data =
      [natChars d.year.toNat, (pad2 d.month).data, (pad2 d.day).data] := by
  rw [format_data d, intToString_nonneg h]
  have hy : ∀ c ∈ natChars d.year.toNat, c ≠ '-' :=
    fun c hc => isDigit_ne_dash (natChars_isDigit _ c hc)
  have hm : ∀ c ∈ (pad2 d.month).data, c ≠ '-' :=
    fun c hc => isDigit_ne_dash (pad2_isDigit _ c hc)
  have hd : ∀ c ∈ (pad2 d.day).data, c ≠ '-' :=
    fun c hc => isDigit_ne_dash (pad2_isDigit _ c hc)
  show splitOnDash (natChars d.year.toNat ++ '-' :: _) = _
  rw [splitOnDash_append_dash _ _ hy, splitOnDash_append_dash _ _ hm,
    splitOnDash_dashFree _ hd]

theorem parse_format {d : JsDate} (h : 0 ≤ d.year) :
    parseYmd (formatDateToYMD d) = ⟨yearAdjust d.year.toNat, d.month, d.day⟩ := by
  unfold parseYmd
  rw [splitOnDash_format h]
  simp [digitsToNat_natChars, digitsToNat_pad2]

theorem parseYmd_year_ge (s : String) : 100 ≤ (parseYmd s).year := by
  show 100 ≤ yearAdjust _
  unfold yearAdjust
  split <;> omega

theorem parse_format_id {d : JsDate} (h : 100 ≤ d.year) :
    parseYmd (formatDateToYMD d) = d := by
  rw [parse_format (by omega)]
  have ht : (d.year.toNat : ℤ) = d.year := Int.toNat_of_nonneg (by omega)
  have : yearAdjust d.year.toNat = d.year := by
    unfold yearAdjust
    split
    · omega
    · exact ht
  rw [this]

theorem formatDateToYMD_inj {a b : JsDate} (ha : 0 ≤ a.year) (hb : 0 ≤ b.year)
    (h : formatDateToYMD a = formatDateToYMD b) : a = b := by
  have hdata : splitOnDash (formatDateToYMD a).data = splitOnDash (formatDateToYMD b).data := by
    rw [h]
  rw [splitOnDash_format ha, splitOnDash_format hb] at hdata
  obtain ⟨h1, h2, h3⟩ :
      natChars a.year.toNat = natChars b.year.toNat ∧
        (pad2 a.month).data = (pad2 b.month).data ∧
          (pad2 a.day).data = (pad2 b.day).data := by
    simpa using hdata
  have hy : a.year = b.year := by
    have := natToString_inj (show natToString a.year.toNat = natToString b.year.toNat by
      unfold natToString; rw [h1])
    omega
  have hm : a.month = b.month := by
    have := digitsToNat_pad2 a.month
    rw [h2, digitsToNat_pad2] at this
    omega
  have hd : a.day = b.day := by
    have := digitsToNat_pad2 a.day
    rw [h3, digitsToNat_pad2] at this
    omega
  cases a; cases b
  simp_all

/-- The dates the data model allows: in-range calendar components. -/
def inRangeDate (d : JsDate) : Prop :=
  1 ≤ d.month ∧ d.month ≤ 12 ∧ 1 ≤ d.day ∧ d.day ≤ daysInMonth d.year d.month

instance (d : JsDate) : Decidable (inRangeDate d) := by
  unfold inRangeDate
  infer_instance

/-- A stored date string is canonical when parsing and re-formatting it is the
identity and the parsed components form an in-range calendar date; this is the
shape of every ISO YYYY-MM-DD string of the data model (years from 100 on,
since the JS Date constructor maps years 0-99 to 1900+y). -/
def canonicalYmd (s : String) : Prop :=
  formatDateToYMD (parseYmd s) = s ∧ inRangeDate (parseYmd s)

instance (s : String) : Decidable (canonicalYmd s) := by
  unfold canonicalYmd
  infer_instance

theorem format_ne_empty (d : JsDate) : formatDateToYMD d ≠ "" := by
  intro h
  have : (formatDateToYMD d).data = [] := by rw [h]
  rw [format_data] at this
  rcases List.append_eq_nil.mp this with ⟨h1, h2⟩
  exact List.cons_ne_nil _ _ h2

theorem canonical_ne_empty {s : String} (h : canonicalYmd s) : s ≠ "" := by
  intro he
  exact format_ne_empty (parseYmd s) (h.1.trans (by rw [he]))

theorem canonical_format_inv {s : String} (hs : canonicalYmd s) {d : JsDate}
    (h : formatDateToYMD d = s) : d = parseYmd s ∧ 100 ≤ d.year := by
  by_cases hy : 0 ≤ d.year
  · have hps : 0 ≤ (parseYmd s).year := by
      have := parseYmd_year_ge s
      omega
    have : d = parseYmd s := by
      apply formatDateToYMD_inj hy hps
      rw [h, hs.1]
    refine ⟨this, ?_⟩
    rw [this]
    exact parseYmd_year_ge s
  · exfalso
    have hd : (formatDateToYMD d).data = (formatDateToYMD (parseYmd s)).data := by
      rw [h, hs.1]
    rw [format_data d, format_data (parseYmd s),
      intToString_nonneg (show (0:ℤ) ≤ (parseYmd s).year by have := parseYmd_year_ge s; omega)]
      at hd
    have hneg : (intToString d.year).data = '-' :: (natToString (-d.year).toNat).data := by
      unfold intToString
      rw [if_pos (by omega)]
      have : ("-" : String).data = ['-'] := rfl
      simp [String.data_append, this]
    rw [hneg] at hd
    have hnn : natChars (parseYmd s).year.toNat ≠ [] := natChars_ne_nil _
    cases hcn : natChars (parseYmd s).year.toNat with
    | nil => exact hnn hcn
    | cons c0 rest =>
        have hdig : c0.isDigit = true := by
          apply natChars_isDigit (parseYmd s).year.toNat
          rw [hcn]
          exact List.mem_cons_self _ _
        have hshape : (natToString (parseYmd s).year.toNat).data = c0 :: rest := by
          show natChars _ = _
          exact hcn
        rw [hshape] at hd
        have hh : '-' = c0 := by injection hd
        exact isDigit_ne_dash hdig hh.symm

/-! ### Data model: stored entries and imported records -/

/-- A stored log entry as the app itself writes it (quick-entry form submit,
lines 1021-1027, or import coercion, lines 905-911): string date, JS
number-or-null weight and durationMinutes, string activityType and notes. -/
structure LogEntry where
  date : String
  weight : Option ℚ
  activityType : String
  notes : String
  durationMinutes : Option ℚ
deriving DecidableEq

/-- A field of an imported record: a JSON number, a JSON string, or anything
else (null, absent, booleans, nested values), which every coercion in the
source treats alike via its default branch. -/
inductive JField where
  | num (q : ℚ)
  | str (s : String)
  | other
deriving DecidableEq

/-- An element of an imported logs array, viewed through the property reads
the merge loop performs (lines 880-911).  A date field that is not a string
is outside the model (the merge would key the Map by a non-string value and
the metrics would later crash on it; no claim exercises this). -/
structure ImportLog where
  date : Option String
  weight : JField
  activityType : Option String
  notes : Option String
  durationMinutes : JField
deriving DecidableEq

/-! ### Number parsing (embedding of parseFloat / parseInt / Number) -/

/-- Embedding of String.prototype.trim, at character level so that it reduces
inside the kernel. -/
def jsTrim (s : String) : String :=
  ⟨((s.data.dropWhile Char.isWhitespace).reverse.dropWhile Char.isWhitespace).reverse⟩

/-- Shared numeric scanner: optional sign, integer digits, optional dot and
fraction digits.  Returns the value and the unconsumed remainder.  Exponent
forms, hex and Infinity are not modelled (no claim evaluates them). -/
def numParseCore (l : List Char) : Option (ℚ × List Char) :=
  let signAndRest : ℚ × List Char :=
    match l with
    | '-' :: r => (-1, r)
    | '+' :: r => (1, r)
    | _ => (1, l)
  let ip := signAndRest.2.takeWhile Char.isDigit
  let r1 := signAndRest.2.dropWhile Char.isDigit
  let fpAndRest : List Char × List Char :=
    match r1 with
    | '.' :: r => (r.takeWhile Char.isDigit, r.dropWhile Char.isDigit)
    | _ => ([], r1)
  if ip.isEmpty ∧ fpAndRest.1.isEmpty then none
  else
    some (signAndRest.1 *
      ((digitsToNat ip : ℚ) + (digitsToNat fpAndRest.1 : ℚ) / (10 : ℚ) ^ fpAndRest.1.length),
      fpAndRest.2)

/-- Embedding of parseFloat(s): skip leading whitespace, parse the longest
numeric prefix, NaN (none) when no digits are found. -/
def jsParseFloat (s : String) : Option ℚ :=
  (numParseCore (s.data.dropWhile Char.isWhitespace)).map Prod.fst

/-- Embedding of parseInt(s, 10): skip leading whitespace, optional sign,
longest digit prefix; NaN (none) when no digits are found. -/
def jsParseInt (s : String) : Option ℤ :=
  let l := s.data.dropWhile Char.isWhitespace
  let signAndRest : ℤ × List Char :=
    match l with
    | '-' :: r => (-1, r)
    | '+' :: r => (1, r)
    | _ => (1, l)
  let ds := signAndRest.2.takeWhile Char.isDigit
  if ds.isEmpty then none else some (signAndRest.1 * digitsToNat ds)

/-- Embedding of Number(s) on a string: whitespace-trimmed empty string is 0,
otherwise the whole string must be numeric, else NaN (none). -/
def jsNumberOfString (s : String) : Option ℚ :=
  let t := (jsTrim s).data
  if t.isEmpty then some 0
  else
    match numParseCore t with
    | some (q, []) => some q
    | _ => none

/-- Embedding of Number(v) on an optional JSON value (none = undefined = NaN).
Number() of arrays and objects is modelled as NaN; no claim evaluates those
branches. -/
def jsNumberOfVal : Option JVal → Option ℚ
  | none => none
  | some .null => some 0
  | some (.bool b) => some (if b then 1 else 0)
  | some (.num q) => some q
  | some (.str s) => jsNumberOfString s
  | some (.arr _) => none
  | some (.obj _) => none

/-! ### Entry Store operations -/

/-- Weight coercion of the merge loop (lines 883-892): keep JS numbers,
parseFloat nonblank strings, everything else becomes null. -/
def coerceWeight : JField → Option ℚ
  | .num q => some q
  | .str s => if jsTrim s = "" then none else jsParseFloat s
  | .other => none

/-- Duration coercion of the merge loop (lines 894-903): keep JS numbers,
parseInt nonblank trimmed strings, everything else becomes null. -/
def coerceDuration : JField → Option ℚ
  | .num q => some q
  | .str s => if jsTrim s = "" then none
      else (jsParseInt (jsTrim s)).map (fun z => (z : ℚ))
  | .other => none

/-- The record stored for an imported log at date d (lines 905-911). -/
def convertImportLog (l : ImportLog) (d : String) : LogEntry :=
  { date := d
    weight := coerceWeight l.weight
    activityType := l.activityType.getD ""
    notes := l.notes.getD ""
    durationMinutes := coerceDuration l.durationMinutes }

/-- JS Map.set on an insertion-ordered association list: replace in place
when the key exists, else append. -/
def mapSet (m : List (String × LogEntry)) (k : String) (v : LogEntry) :
    List (String × LogEntry) :=
  if m.any (fun p => p.1 == k) then m.map (fun p => if p.1 = k then (k, v) else p)
  else m ++ [(k, v)]

/-- One iteration of parsed.logs.forEach (lines 880-912): skip falsy elements
and falsy dates, otherwise coerce and Map.set by date. -/
def importStep (m : List (String × LogEntry)) (ol : Option ImportLog) :
    List (String × LogEntry) :=
  match ol with
  | none => m
  | some l =>
      match l.date with
      | none => m
      | some d => if d = "" then m else mapSet m d (convertImportLog l d)

/-- The merged Map of restoreFullBackupJsonFromText (lines 874-912): existing
entries keyed by date, then each imported log overwriting by date. -/
def mergeMap (entries : List LogEntry) (logs : List (Option ImportLog)) :
    List (String × LogEntry) :=
  logs.foldl importStep (entries.foldl (fun m e => mapSet m e.date e) [])

/-- The merge-import operation (lines 872-921): Map values, then sort newest
first.  The sort comparator parses the date strings; only the permutation
matters to the claims. -/
def mergeImport (entries : List LogEntry) (logs : List (Option ImportLog)) :
    List LogEntry :=
  ((mergeMap entries logs).map Prod.snd).mergeSort
    (fun a b => jsDateLe (parseYmd b.date) (parseYmd a.date))

/-- The quick-entry replace-by-date path (lines 1029-1031): drop any entry
with the same date, then push the new entry. -/
def addOrReplace (entries : List LogEntry) (e : LogEntry) : List LogEntry :=
  entries.filter (fun x => x.date != e.date) ++ [e]

/-- A store mutation: a quick-entry submit or a backup-logs merge. -/
inductive StoreOp where
  | addRep (e : LogEntry)
  | mergeImp (logs : List (Option ImportLog))

def applyOp (st : List LogEntry) : StoreOp → List LogEntry
  | .addRep e => addOrReplace st e
  | .mergeImp logs => mergeImport st logs

def applyOps (st : List LogEntry) (ops : List StoreOp) : List LogEntry :=
  ops.foldl applyOp st

/-! ### App state, restore, export, storage loaders -/

/-- The in-memory state the import/export adapter touches: the entries array
and the userSettings value (raw, since restore assigns the parsed JSON
value without coercion). -/
structure AppState where
  entries : List LogEntry
  userSettings : JVal

/-- The logs field of a parsed backup as the restore reads it. -/
inductive LogsField where
  | notArray
  | array (xs : List (Option ImportLog))

/-- A parsed backup envelope, viewed through the two property reads restore
performs: parsed.userSettings (none = absent) and parsed.logs. -/
structure ParsedBackup where
  userSettings : Option JVal
  logs : LogsField

/-- What restore reports: the malformed-JSON alert or the completion alert
with the entry count it displays. -/
inductive RestoreOutcome where
  | malformedJsonError
  | completed (entryCount : ℕ)

/-- restoreFullBackupJsonFromText (lines 856-926).  The input is the JSON
parse result of the supplied text (none = parse failure). -/
def restoreFullBackupJsonFromText (parsed : Option ParsedBackup) (st : AppState) :
    AppState × RestoreOutcome :=
  match parsed with
  | none => (st, .malformedJsonError)
  | some p =>
      let settings1 : JVal :=
        match p.userSettings with
        | some v => if v.truthy then v else st.userSettings
        | none => st.userSettings
      let entries1 : List LogEntry :=
        match p.logs with
        | .notArray => st.entries
        | .array xs => mergeImport st.entries xs
      (⟨entries1, settings1⟩, .completed entries1.length)

/-- The JSON backup envelope built by exportFullBackupJson (lines 771-783). -/
structure BackupEnvelope where
  version : ℕ
  exportedAt : String
  userSettings : JVal
  logs : List LogEntry

/-- exportFullBackupJson (lines 771-783); exportedAt is the current timestamp
string. -/
def exportFullBackupJson (st : AppState) (timestamp : String) : BackupEnvelope :=
  { version := 1, exportedAt := timestamp, userSettings := st.userSettings,
    logs := st.entries }

/-- JSON serialization of a stored entry followed by the property reads of the
merge loop; numbers and strings round-trip losslessly through JSON. -/
def entryToImportLog (e : LogEntry) : ImportLog :=
  { date := some e.date
    weight := match e.weight with | some q => .num q | none => .other
    activityType := some e.activityType
    notes := some e.notes
    durationMinutes := match e.durationMinutes with | some q => .num q | none => .other }

/-- JSON.stringify of the envelope followed by JSON.parse, as restore then
reads it. -/
def parseEnvelope (env : BackupEnvelope) : ParsedBackup :=
  { userSettings := some env.userSettings
    logs := .array (env.logs.map (fun e => some (entryToImportLog e))) }

/-- loadEntries (lines 25-35).  Input: none models a missing or empty stored
string (both falsy), some none a stored string that JSON.parse rejects, and
some (some v) a stored string parsing to v.  The parsed array elements are
raw JSON values. -/
def loadEntries (stored : Option (Option JVal)) : List JVal :=
  match stored with
  | none => []
  | some none => []
  | some (some (.arr xs)) => xs
  | some (some _) => []

/-- The default settings record of loadSettings (lines 44-49 and 63-68). -/
def defaultSettings : JVal :=
  .obj [("firstName", .str ""), ("heightCm", .null), ("weighInDay", .null),
    ("profilePicUrl", .str "")]

/-- loadSettings (lines 41-70), same input convention as loadEntries. -/
def loadSettings (stored : Option (Option JVal)) : JVal :=
  match stored with
  | none => defaultSettings
  | some none => defaultSettings
  | some (some parsed) =>
      .obj [("firstName",
              match parsed.getField "firstName" with
              | some v => if v.truthy then v else .str ""
              | none => .str ""),
            ("heightCm",
              match jsNumberOfVal (parsed.getField "heightCm") with
              | some q => if q = 0 then .null else .num q
              | none => .null),
            ("weighInDay",
              match parsed.getField "weighInDay" with
              | some (.num q) => .num q
              | _ => .null),
            ("profilePicUrl",
              match parsed.getField "profilePicUrl" with
              | some v => if v.truthy then v else .str ""
              | none => .str "")]

/-! ### Metrics engine -/

/-- JS string comparison (code-unit lexicographic order), embedded on the
character lists. -/
def jsStrLt (a b : String) : Prop := a.data < b.data

instance (a b : String) : Decidable (jsStrLt a b) := by
  unfold jsStrLt
  infer_instance

/-- getLatestWeightUpToDate (lines 160-175): fold over the entries keeping the
weight of the latest-dated weight-bearing entry; an empty limit string is
falsy, so no limit applies; date comparison is JS string comparison. -/
def getLatestWeightUpToDate (entries : List LogEntry) (limitDateStr : String) : Option ℚ :=
  (entries.foldl
    (fun (acc : Option String × Option ℚ) e =>
      match e.weight with
      | none => acc
      | some w =>
          if limitDateStr ≠ "" ∧ jsStrLt limitDateStr e.date then acc
          else
            match acc.1 with
            | none => (some e.date, some w)
            | some ld => if jsStrLt ld e.date then (some e.date, some w) else acc)
    (none, none)).2

/-- getMetForActivity (lines 178-191): fixed MET table with default 5.0. -/
def getMetForActivity (activityType : String) : ℚ :=
  if activityType = "הליכה" then 4
  else if activityType = "ריצה" then 10
  else if activityType = "רכיבה" then 8
  else 5

/-- calculateEntryCalories (lines 194-211). -/
def calculateEntryCalories (entries : List LogEntry) (entry : LogEntry) : Option ℚ :=
  match entry.durationMinutes with
  | none => none
  | some duration =>
      if duration ≤ 0 then none
      else
        match (match entry.weight with
               | some w => some w
               | none => getLatestWeightUpToDate entries entry.date) with
        | none => none
        | some w =>
            if w ≤ 0 then none
            else
              let calories := getMetForActivity entry.activityType * w * (duration / 60)
              if 0 < calories then some calories else none

/-- The list of distinct entry dates, as the Set in calculateCurrentStreak. -/
def uniqueDatesOf (entries : List LogEntry) : List String :=
  (entries.map (fun e => e.date)).dedup

/-- sortedDatesDesc[0] of calculateCurrentStreak: the unique dates sorted by
parsed date descending, then the head. -/
def mostRecentLogDate (entries : List LogEntry) (now : JsDate) : String :=
  ((uniqueDatesOf entries).mergeSort
    (fun a b => jsDateLe (dateFromYMD now b) (dateFromYMD now a))).headD ""

/-- The while loop of calculateCurrentStreak (lines 336-344): step the cursor
back one day at a time and count the consecutive hits.  The source loop is
unbounded with a break; fuel bounds it by the number of distinct dates, which
theorem claim_C5_streak shows is never reached before the break. -/
def streakLoop (uniqueDates : List String) (cursor : JsDate) : ℕ → ℕ
  | 0 => 0
  | fuel + 1 =>
      let c := prevDay cursor
      if formatDateToYMD c ∈ uniqueDates then streakLoop uniqueDates c fuel + 1
      else 0

/-- calculateCurrentStreak (lines 301-347), with the ambient current date as
an argument.  The locals currentCheckDate, diffTime and diffDays of the
source are dead code and are omitted. -/
def calculateCurrentStreak (entries : List LogEntry) (now : JsDate) : ℕ :=
  if entries = [] then 0
  else
    let todayStr := formatDateToYMD now
    let yesterdayStr := formatDateToYMD (prevDay now)
    let mostRecent := mostRecentLogDate entries now
    if mostRecent ≠ todayStr ∧ mostRecent ≠ yesterdayStr then 0
    else
      streakLoop (uniqueDatesOf entries) (dateFromYMD now mostRecent)
        (uniqueDatesOf entries).length + 1

/-- calculateCurrentBmi (lines 349-380), with the ambient current date as an
argument (it reaches the sort comparator through dateFromYMD). -/
def calculateCurrentBmi (entries : List LogEntry) (settings : JVal) (now : JsDate) :
    Option (ℚ × String) :=
  if entries = [] then none
  else if ¬ settings.truthy then none
  else
    match settings.getField "heightCm" with
    | some (.num h) =>
        if h ≤ 0 then none
        else
          let entriesWithWeight := entries.filter (fun e => e.weight.isSome)
          if entriesWithWeight = [] then none
          else
            let sorted := entriesWithWeight.mergeSort
              (fun a b => jsDateLe (dateFromYMD now a.date) (dateFromYMD now b.date))
            match sorted.getLast? with
            | none => none
            | some latest =>
                match latest.weight with
                | none => none
                | some w =>
                    let heightM := h / 100
                    let bmi := w / (heightM * heightM)
                    some (bmi,
                      if bmi < 18.5 then "תת־משקל"
                      else if bmi < 25 then "טווח תקין"
                      else if bmi < 30 then "עודף משקל"
                      else "השמנה")
    | _ => none

/-! ### Lemmas about the merge Map -/

/-- Well-formedness of the merge Map: distinct keys, and every value is an
entry whose date is its key. -/
def wfMap (m : List (String × LogEntry)) : Prop :=
  (m.map Prod.fst).Nodup ∧ ∀ p ∈ m, p.2.date = p.1

theorem mapSet_any_iff (m : List (String × LogEntry)) (k : String) :
    (m.any (fun p => p.1 == k)) = true ↔ k ∈ m.map Prod.fst := by
  rw [List.any_eq_true]
  constructor
  · rintro ⟨p, hp, hpk⟩
    rw [beq_iff_eq] at hpk
    exact hpk ▸ List.mem_map_of_mem Prod.fst hp
  · intro hk
    rcases List.mem_map.mp hk with ⟨p, hp, hpk⟩
    exact ⟨p, hp, by rw [beq_iff_eq]; exact hpk⟩

theorem wfMap_mapSet {m : List (String × LogEntry)} {k : String} {v : LogEntry}
    (h : wfMap m) (hv : v.date = k) : wfMap (mapSet m k v) := by
  unfold mapSet
  split
  · constructor
    · have : (m.map (fun p => if p.1 = k then (k, v) else p)).map Prod.fst
          = m.map Prod.fst := by
        rw [List.map_map]
        apply List.map_congr_left
        intro p _
        by_cases hp : p.1 = k
        · simp [hp]
        · simp [hp]
      rw [this]
      exact h.1
    · intro p hp
      rcases List.mem_map.mp hp with ⟨q, hq, hqe⟩
      by_cases hqk : q.1 = k
      · rw [if_pos hqk] at hqe
        rw [← hqe]
        exact hv
      · rw [if_neg hqk] at hqe
        rw [← hqe]
        exact h.2 q hq
  · rename_i hnot
    rw [mapSet_any_iff] at hnot
    constructor
    · rw [List.map_append, List.nodup_append]
      refine ⟨h.1, by simp, ?_⟩
      intro x hx
      simp only [List.map_cons, List.map_nil, List.mem_singleton]
      intro hxk
      subst hxk
      exact hnot hx
    · intro p hp
      rcases List.mem_append.mp hp with hp | hp
      · exact h.2 p hp
      · rcases List.mem_singleton.mp hp with rfl
        exact hv

theorem wfMap_nil : wfMap [] := by
  constructor
  · exact List.nodup_nil
  · intro p hp
    cases hp

theorem wfMap_foldl_entries (l : List LogEntry) (m : List (String × LogEntry))
    (h : wfMap m) : wfMap (l.foldl (fun m e => mapSet m e.date e) m) := by
  induction l generalizing m with
  | nil => exact h
  | cons e l ih => exact ih _ (wfMap_mapSet h rfl)

theorem convertImportLog_date (l : ImportLog) (d : String) :
    (convertImportLog l d).date = d := rfl

theorem wfMap_importStep {m : List (String × LogEntry)} (h : wfMap m)
    (ol : Option ImportLog) : wfMap (importStep m ol) := by
  cases ol with
  | none => exact h
  | some l =>
      cases hld : l.date with
      | none =>
          simp only [importStep, hld]
          exact h
      | some d =>
          simp only [importStep, hld]
          split
          · exact h
          · exact wfMap_mapSet h rfl

theorem wfMap_foldl_importStep (logs : List (Option ImportLog))
    (m : List (String × LogEntry)) (h : wfMap m) :
    wfMap (logs.foldl importStep m) := by
  induction logs generalizing m with
  | nil => exact h
  | cons ol logs ih => exact ih _ (wfMap_importStep h ol)

theorem wfMap_mergeMap (entries : List LogEntry) (logs : List (Option ImportLog)) :
    wfMap (mergeMap entries logs) :=
  wfMap_foldl_importStep _ _ (wfMap_foldl_entries _ _ wfMap_nil)

theorem mergeMap_values_dates (m : List (String × LogEntry)) (h : wfMap m) :
    (m.map Prod.snd).map (fun e => e.date) = m.map Prod.fst := by
  rw [List.map_map]
  apply List.map_congr_left
  intro p hp
  exact h.2 p hp

theorem mergeImport_perm (entries : List LogEntry) (logs : List (Option ImportLog)) :
    (mergeImport entries logs).Perm ((mergeMap entries logs).map Prod.snd) :=
  List.mergeSort_perm _ _

/-- The dates of a merge-import result are always duplicate free. -/
theorem nodup_dates_mergeImport (entries : List LogEntry) (logs : List (Option ImportLog)) :
    ((mergeImport entries logs).map (fun e => e.date)).Nodup := by
  have hperm := (mergeImport_perm entries logs).map (fun e => e.date)
  rw [hperm.nodup_iff, mergeMap_values_dates _ (wfMap_mergeMap entries logs)]
  exact (wfMap_mergeMap entries logs).1

theorem nodup_dates_addOrReplace {st : List LogEntry} (e : LogEntry)
    (h : (st.map (fun x => x.date)).Nodup) :
    ((addOrReplace st e).map (fun x => x.date)).Nodup := by
  unfold addOrReplace
  rw [List.map_append, List.nodup_append]
  refine ⟨List.Nodup.sublist ((List.filter_sublist st).map _) h, by simp, ?_⟩
  intro x hx
  simp only [List.map_cons, List.map_nil, List.mem_singleton]
  rcases List.mem_map.mp hx with ⟨y, hy, hye⟩
  rcases List.mem_filter.mp hy with ⟨hy2, hyne⟩
  intro hxe
  rw [bne_iff_ne] at hyne
  exact hyne (hye.trans hxe ▸ rfl)

/-- Claim C1 (invariant I1, date uniqueness): starting from a store in which
no two entries share a date, every sequence of add-or-replace operations and
merge-import operations leaves the store with at most one entry per distinct
date. -/
theorem claim_C1_date_uniqueness (st : List LogEntry) (ops : List StoreOp)
    (h : (st.map (fun e => e.date)).Nodup) :
    ((applyOps st ops).map (fun e => e.date)).Nodup := by
  induction ops generalizing st with
  | nil => exact h
  | cons op ops ih =>
      show ((applyOps (applyOp st op) ops).map _).Nodup
      apply ih
      cases op with
      | addRep e => exact nodup_dates_addOrReplace e h
      | mergeImp logs => exact nodup_dates_mergeImport st logs

theorem claim_C1_date_uniqueness_witness :
    (([⟨"2024-01-01", none, "", "", none⟩] : List LogEntry).map (fun e => e.date)).Nodup ∧
      ((applyOps [⟨"2024-01-01", none, "", "", none⟩]
        [.addRep ⟨"2024-01-01", none, "ריצה", "", none⟩,
         .mergeImp [some ⟨some "2024-01-02", .other, none, none, .other⟩,
           some ⟨some "2024-01-01", .other, none, none, .other⟩]]).map
        (fun e => e.date)).Nodup :=
  ⟨by decide,
    claim_C1_date_uniqueness _ _ (by decide)⟩

/-! ### Claim C2: merge non-destructiveness -/

/-- The effective dates of an imported logs array: dates of the elements the
merge loop actually processes (truthy element with truthy date). -/
def importDates (logs : List (Option ImportLog)) : List String :=
  logs.filterMap (fun ol =>
    match ol with
    | some l =>
        match l.date with
        | some d => if d = "" then none else some d
        | none => none
    | none => none)

theorem foldl_mapSet_fresh (l : List LogEntry) (m : List (String × LogEntry))
    (hfresh : ∀ e ∈ l, e.date ∉ m.map Prod.fst)
    (hnd : (l.map (fun e => e.date)).Nodup) :
    l.foldl (fun m e => mapSet m e.date e) m = m ++ l.map (fun e => (e.date, e)) := by
  induction l generalizing m with
  | nil => simp
  | cons e l ih =>
      have hnotany : (m.any (fun p => p.1 == e.date)) ≠ true := by
        intro hany
        exact hfresh e (List.mem_cons_self e l) ((mapSet_any_iff m e.date).mp hany)
      have hstep : mapSet m e.date e = m ++ [(e.date, e)] := by
        unfold mapSet
        rw [if_neg hnotany]
      show List.foldl _ (mapSet m e.date e) l = _
      rw [hstep, ih (m ++ [(e.date, e)])]
      · simp
      · intro x hx
        simp only [List.map_append, List.map_cons, List.map_nil, List.mem_append,
          List.mem_singleton]
        rintro (hxm | hxe)
        · exact hfresh x (List.mem_cons_of_mem e hx) hxm
        · rw [List.map_cons, List.nodup_cons] at hnd
          exact hnd.1 (hxe ▸ List.mem_map_of_mem (fun e => e.date) hx)
      · rw [List.map_cons, List.nodup_cons] at hnd
        exact hnd.2

/-- Phase 1 of the merge on a store satisfying I1 is just the entries keyed
by their dates. -/
theorem phase1_eq (entries : List LogEntry)
    (hnd : (entries.map (fun e => e.date)).Nodup) :
    entries.foldl (fun m e => mapSet m e.date e) [] =
      entries.map (fun e => (e.date, e)) := by
  have := foldl_mapSet_fresh entries [] (by simp) hnd
  simpa using this

theorem mem_mapSet_of_ne {m : List (String × LogEntry)} {k : String} {v : LogEntry}
    (kk : String) (vv : LogEntry) (hmem : (k, v) ∈ m) (hne : k ≠ kk) :
    (k, v) ∈ mapSet m kk vv := by
  unfold mapSet
  split
  · apply List.mem_map.mpr
    exact ⟨(k, v), hmem, by rw [if_neg (by simpa using hne)]⟩
  · exact List.mem_append_left _ hmem

theorem mem_foldl_importStep {m : List (String × LogEntry)} {k : String} {v : LogEntry}
    (logs : List (Option ImportLog)) (hmem : (k, v) ∈ m)
    (hout : k ∉ importDates logs) :
    (k, v) ∈ logs.foldl importStep m := by
  induction logs generalizing m with
  | nil => exact hmem
  | cons ol logs ih =>
      show (k, v) ∈ List.foldl importStep (importStep m ol) logs
      have houttail : k ∉ importDates logs := by
        intro hk
        apply hout
        unfold importDates at hk ⊢
        rw [List.filterMap_cons]
        split
        · exact hk
        · exact List.mem_cons_of_mem _ hk
      apply ih _ houttail
      cases ol with
      | none => exact hmem
      | some l =>
          cases hld : l.date with
          | none =>
              simp only [importStep, hld]
              exact hmem
          | some d =>
              simp only [importStep, hld]
              split
              · exact hmem
              · apply mem_mapSet_of_ne _ _ hmem
                intro hkd
                apply hout
                unfold importDates
                rw [List.filterMap_cons]
                have : (match some l with
                    | some l =>
                        match l.date with
                        | some d => if d = "" then none else some d
                        | none => none
                    | none => none) = some d := by
                  show (match l.date with
                    | some d => if d = "" then none else some d
                    | none => none) = some d
                  rw [hld]
                  rename_i hne
                  show (if d = "" then none else some d) = some d
                  rw [if_neg hne]
                rw [this]
                exact hkd ▸ List.mem_cons_self _ _

theorem values_mem_of_mem {m : List (String × LogEntry)} {k : String} {v : LogEntry}
    (h : (k, v) ∈ m) : v ∈ m.map Prod.snd :=
  List.mem_map.mpr ⟨(k, v), h, rfl⟩

theorem unique_at_date {m : List (String × LogEntry)} (hwf : wfMap m)
    {v x : LogEntry} (hv : (v.date, v) ∈ m) (hx : x ∈ m.map Prod.snd)
    (hdate : x.date = v.date) : x = v := by
  rcases List.mem_map.mp hx with ⟨p, hp, hpe⟩
  have hkey : p.1 = v.date := by
    rw [← hwf.2 p hp, hpe, hdate]
  have : p = (v.date, v) := by
    apply List.inj_on_of_nodup_map hwf.1 hp hv
    rw [hkey]
  rw [← hpe, this]

/-- Claim C2 (merge non-destructiveness): on a store satisfying I1, a
merge-import whose logs cover the dates D leaves every pre-existing entry
whose date is outside D present and unchanged (and still the only entry at
its date). -/
theorem claim_C2_merge_nondestructive (st : List LogEntry)
    (logs : List (Option ImportLog)) (e : LogEntry)
    (hnd : (st.map (fun x => x.date)).Nodup)
    (he : e ∈ st) (hout : e.date ∉ importDates logs) :
    e ∈ mergeImport st logs ∧
      ∀ x ∈ mergeImport st logs, x.date = e.date → x = e := by
  have hpair : (e.date, e) ∈ mergeMap st logs := by
    unfold mergeMap
    apply mem_foldl_importStep logs _ hout
    rw [phase1_eq st hnd]
    exact List.mem_map_of_mem _ he
  have hwf := wfMap_mergeMap st logs
  have hperm := mergeImport_perm st logs
  constructor
  · exact hperm.mem_iff.mpr (values_mem_of_mem hpair)
  · intro x hx hdate
    exact unique_at_date hwf hpair (hperm.mem_iff.mp hx) hdate

theorem claim_C2_merge_nondestructive_witness :
    ((([⟨"2024-01-02", none, "", "שמירה", none⟩] : List LogEntry).map
        (fun x => x.date)).Nodup ∧
      (⟨"2024-01-02", none, "", "שמירה", none⟩ : LogEntry) ∈
        ([⟨"2024-01-02", none, "", "שמירה", none⟩] : List LogEntry) ∧
      "2024-01-02" ∉ importDates [some ⟨some "2024-01-03", .other, none, none, .other⟩]) ∧
      (⟨"2024-01-02", none, "", "שמירה", none⟩ : LogEntry) ∈
        mergeImport [⟨"2024-01-02", none, "", "שמירה", none⟩]
          [some ⟨some "2024-01-03", .other, none, none, .other⟩] :=
  ⟨⟨by decide, by decide, by decide⟩,
    (claim_C2_merge_nondestructive _ _ _ (by decide) (by decide) (by decide)).1⟩

/-! ### Claim C3: merge overwrite -/

/-- Map.get by key on the association-list Map. -/
def assocGet (m : List (String × LogEntry)) (k : String) : Option LogEntry :=
  (m.find? (fun p => p.1 == k)).map Prod.snd

/-- The last record of an imported logs array whose date field is the string
d (the record whose coercion the merge stores at d, by last-writer-wins). -/
def lastLogAt : List (Option ImportLog) → String → Option ImportLog
  | [], _ => none
  | ol :: rest, d =>
      match lastLogAt rest d with
      | some x => some x
      | none =>
          match ol with
          | some l => if l.date = some d then some l else none
          | none => none

theorem find?_map_replace (m : List (String × LogEntry)) (k : String) (v : LogEntry)
    (hmem : k ∈ m.map Prod.fst) :
    (m.map (fun p => if p.1 = k then (k, v) else p)).find? (fun p => p.1 == k) =
      some (k, v) := by
  induction m with
  | nil => cases hmem
  | cons q m ih =>
      rw [List.map_cons]
      by_cases hq : q.1 = k
      · rw [if_pos hq]
        rw [List.find?_cons_of_pos _ (by simp)]
      · rw [if_neg hq]
        rw [List.find?_cons_of_neg _ (by simpa using hq)]
        apply ih
        rcases List.mem_map.mp hmem with ⟨p, hp, hpe⟩
        rcases List.mem_cons.mp hp with hp | hp
        · exact absurd (hp ▸ hpe) hq
        · exact hpe ▸ List.mem_map_of_mem Prod.fst hp

theorem assocGet_mapSet_self (m : List (String × LogEntry)) (k : String) (v : LogEntry) :
    assocGet (mapSet m k v) k = some v := by
  unfold assocGet mapSet
  split
  · rename_i hany
    rw [find?_map_replace m k v ((mapSet_any_iff m k).mp hany)]
    rfl
  · rename_i hany
    rw [List.find?_append]
    have hnone : m.find? (fun p => p.1 == k) = none := by
      rw [List.find?_eq_none]
      intro p hp hpk
      exact hany (List.any_eq_true.mpr ⟨p, hp, hpk⟩)
    rw [hnone]
    rw [List.find?_cons_of_pos _ (by simp)]
    rfl

theorem assocGet_mapSet_ne (m : List (String × LogEntry)) {k kk : String}
    (v : LogEntry) (hne : kk ≠ k) : assocGet (mapSet m k v) kk = assocGet m kk := by
  unfold assocGet mapSet
  split
  · have : ∀ (m : List (String × LogEntry)),
        (m.map (fun p => if p.1 = k then (k, v) else p)).find? (fun p => p.1 == kk) =
          m.find? (fun p => p.1 == kk) := by
      intro m
      induction m with
      | nil => rfl
      | cons q m ih =>
          rw [List.map_cons]
          by_cases hq : q.1 = k
          · rw [if_pos hq]
            rw [List.find?_cons_of_neg _ (by simpa using (Ne.symm hne)),
              List.find?_cons_of_neg _ (by simp [hq]; exact fun h => absurd h.symm hne)]
            exact ih
          · rw [if_neg hq]
            rw [List.find?_cons]
            rw [List.find?_cons]
            split
            · rfl
            · exact ih
    rw [this]
  · rw [List.find?_append]
    have : List.find? (fun p => p.1 == kk) [(k, v)] = none := by
      rw [List.find?_eq_none]
      intro p hp
      rcases List.mem_singleton.mp hp with rfl
      simpa using Ne.symm hne
    rw [this]
    rw [Option.or_none]

theorem lastLogAt_cons (ol : Option ImportLog) (rest : List (Option ImportLog))
    (d : String) :
    lastLogAt (ol :: rest) d =
      match lastLogAt rest d with
      | some x => some x
      | none =>
          match ol with
          | some l => if l.date = some d then some l else none
          | none => none := rfl

theorem assocGet_foldl_importStep (logs : List (Option ImportLog)) (d : String)
    (hd : d ≠ "") (m : List (String × LogEntry)) :
    assocGet (logs.foldl importStep m) d =
      match lastLogAt logs d with
      | some l => some (convertImportLog l d)
      | none => assocGet m d := by
  induction logs generalizing m with
  | nil => rfl
  | cons ol logs ih =>
      show assocGet (List.foldl importStep (importStep m ol) logs) d = _
      rw [ih (importStep m ol)]
      rw [lastLogAt_cons]
      cases hlast : lastLogAt logs d with
      | some x => rfl
      | none =>
          cases ol with
          | none => rfl
          | some l =>
              cases hld : l.date with
              | none =>
                  simp only [importStep, hld]
                  simp
              | some dd =>
                  simp only [importStep, hld]
                  by_cases hdd : dd = d
                  · subst hdd
                    rw [if_neg hd]
                    rw [if_pos rfl]
                    exact assocGet_mapSet_self m dd (convertImportLog l dd)
                  · rw [if_neg (show ¬(some dd = some d) from by simpa using hdd)]
                    by_cases hde : dd = ""
                    · rw [if_pos hde]
                    · rw [if_neg hde]
                      exact assocGet_mapSet_ne m _ (fun h => hdd h.symm)

theorem assocGet_mem {m : List (String × LogEntry)} {k : String} {v : LogEntry}
    (h : assocGet m k = some v) : (k, v) ∈ m := by
  unfold assocGet at h
  cases hf : m.find? (fun p => p.1 == k) with
  | none => rw [hf] at h; cases h
  | some p =>
      rw [hf] at h
      have hp1 : p.1 = k := by simpa using List.find?_some hf
      have hp2 : p.2 = v := by injection h
      have := List.mem_of_find?_eq_some hf
      have : p = (k, v) := by
        cases p
        simp_all
      exact this ▸ List.mem_of_find?_eq_some hf

/-- Claim C3 (merge overwrite): when the store holds an entry at date d and
the imported logs contain a record with date d, the entry stored at d after
the merge is built entirely from the (last) imported record with date d, via
the field coercions; nothing is inherited from the old entry. -/
theorem claim_C3_merge_overwrite (st : List LogEntry) (logs : List (Option ImportLog))
    (d : String) (l : ImportLog)
    (hd : d ≠ "")
    (hstore : ∃ e0 ∈ st, e0.date = d)
    (hlast : lastLogAt logs d = some l) :
    convertImportLog l d ∈ mergeImport st logs ∧
      ∀ x ∈ mergeImport st logs, x.date = d → x = convertImportLog l d := by
  have hget : assocGet (mergeMap st logs) d = some (convertImportLog l d) := by
    unfold mergeMap
    rw [assocGet_foldl_importStep logs d hd, hlast]
  have hpair : (d, convertImportLog l d) ∈ mergeMap st logs := assocGet_mem hget
  have hpair2 : ((convertImportLog l d).date, convertImportLog l d) ∈ mergeMap st logs := by
    rw [convertImportLog_date]
    exact hpair
  have hwf := wfMap_mergeMap st logs
  have hperm := mergeImport_perm st logs
  constructor
  · exact hperm.mem_iff.mpr (values_mem_of_mem hpair)
  · intro x hx hdate
    apply unique_at_date hwf hpair2 (hperm.mem_iff.mp hx)
    rw [convertImportLog_date]
    exact hdate

/-- Witness for claim C3, the scenario of the claim: importing the record
with date 2024-01-01 and string weight "79.5" over the stored entry
with weight 80 and notes "x" stores exactly the record with weight 79.5 and
empty notes (and nothing else at that date). -/
theorem claim_C3_merge_overwrite_witness :
    ("2024-01-01" : String) ≠ "" ∧
      (∃ e0 ∈ ([⟨"2024-01-01", some 80, "", "x", none⟩] : List LogEntry),
        e0.date = "2024-01-01") ∧
      lastLogAt [some ⟨some "2024-01-01", .str "79.5", none, none, .other⟩]
        "2024-01-01" = some ⟨some "2024-01-01", .str "79.5", none, none, .other⟩ ∧
      (convertImportLog ⟨some "2024-01-01", .str "79.5", none, none, .other⟩
          "2024-01-01" = ⟨"2024-01-01", some ((159 : ℚ) / 2), "", "", none⟩) ∧
      (⟨"2024-01-01", some ((159 : ℚ) / 2), "", "", none⟩ : LogEntry) ∈
        mergeImport [⟨"2024-01-01", some 80, "", "x", none⟩]
          [some ⟨some "2024-01-01", .str "79.5", none, none, .other⟩] := by
  have hconv : convertImportLog ⟨some "2024-01-01", .str "79.5", none, none, .other⟩
      "2024-01-01" = ⟨"2024-01-01", some ((159 : ℚ) / 2), "", "", none⟩ := by
    show (⟨"2024-01-01", coerceWeight (.str "79.5"), "", "", coerceDuration .other⟩
      : LogEntry) = _
    have hw : coerceWeight (.str "79.5") = some ((159 : ℚ) / 2) := by
      show (if jsTrim "79.5" = "" then none else jsParseFloat "79.5")
        = some ((159 : ℚ) / 2)
      rw [if_neg (by decide)]
      show some ((1 : ℚ) * ((digitsToNat ['7', '9'] : ℚ)
        + (digitsToNat ['5'] : ℚ) / (10 : ℚ) ^ (['5'].length))) = some ((159 : ℚ) / 2)
      have h79 : digitsToNat ['7', '9'] = 79 := rfl
      have h5 : digitsToNat ['5'] = 5 := rfl
      rw [h79, h5]
      norm_num
    rw [hw]
    rfl
  refine ⟨by decide, ⟨⟨"2024-01-01", some 80, "", "x", none⟩, by decide, rfl⟩,
    by decide, hconv, ?_⟩
  have h := (claim_C3_merge_overwrite
    [⟨"2024-01-01", some 80, "", "x", none⟩]
    [some ⟨some "2024-01-01", .str "79.5", none, none, .other⟩]
    "2024-01-01" ⟨some "2024-01-01", .str "79.5", none, none, .other⟩
    (by decide) ⟨⟨"2024-01-01", some 80, "", "x", none⟩, by decide, rfl⟩
    (by decide)).1
  rw [hconv] at h
  exact h

/-! ### Claim C7: malformed import atomicity -/

/-- Claim C7 (malformed-import atomicity): on input text that does not parse
as JSON, restore reports the malformed-JSON error and leaves the entry store
and the settings store entirely unchanged. -/
theorem claim_C7_malformed_import (st : AppState) :
    (restoreFullBackupJsonFromText none st).1.entries = st.entries ∧
      (restoreFullBackupJsonFromText none st).1.userSettings = st.userSettings ∧
      (restoreFullBackupJsonFromText none st).2 = RestoreOutcome.malformedJsonError :=
  ⟨rfl, rfl, rfl⟩

/-! ### Claim C9: corrupt-storage recovery -/

/-- Claim C9 (corrupt-storage recovery): the entries loader returns the
stored array when the persisted value parses as a JSON array, and the empty
array when the value is missing, unparseable, or not an array; the settings
loader returns the default record (empty name, absent height, absent weigh-in
day, empty avatar reference) when the value is missing or unparseable.  Both
loaders are total functions: no input raises an error. -/
theorem claim_C9_loaders :
    loadEntries none = [] ∧ loadEntries (some none) = [] ∧
      (∀ xs, loadEntries (some (some (JVal.arr xs))) = xs) ∧
      (∀ v : JVal, (∀ xs, v ≠ JVal.arr xs) → loadEntries (some (some v)) = []) ∧
      loadSettings none = defaultSettings ∧
      loadSettings (some none) = defaultSettings := by
  refine ⟨rfl, rfl, fun xs => rfl, ?_, rfl, rfl⟩
  intro v hv
  cases v with
  | null => rfl
  | bool b => rfl
  | num q => rfl
  | str s => rfl
  | arr xs => exact absurd rfl (hv xs)
  | obj fields => rfl

theorem claim_C9_loaders_witness :
    (∀ xs, JVal.null ≠ JVal.arr xs) ∧ loadEntries (some (some JVal.null)) = [] :=
  ⟨fun xs h => JVal.noConfusion h,
    claim_C9_loaders.2.2.2.1 JVal.null (fun xs h => JVal.noConfusion h)⟩

/-! ### Claim C10: independent application of the two import halves -/

/-- Counterexample to claim C10 as stated: the parsed object
has a userSettings field (holding null) and a non-array logs field, yet the
settings store is not overwritten with that value -- the falsy-value guard
skips the assignment and the settings are left unchanged. -/
theorem claim_C10_counterexample :
    (restoreFullBackupJsonFromText (some ⟨some JVal.null, .notArray⟩)
        ⟨[], defaultSettings⟩).1.userSettings = defaultSettings ∧
      defaultSettings ≠ JVal.null :=
  ⟨rfl, fun h => JVal.noConfusion h⟩

/-- Claim C10 as amended: for a parsed object with a truthy userSettings
field and a non-array logs field, restore overwrites the settings store with
the parsed userSettings value exactly (no coercion or defaulting), leaves
the entry store unchanged and reports the pre-existing entry count; for a
parsed object with a logs array and no userSettings field, restore merges
the entries and leaves the settings store unchanged. -/
theorem claim_C10_import_halves (st : AppState) (v : JVal) (hv : v.truthy = true)
    (xs : List (Option ImportLog)) :
    restoreFullBackupJsonFromText (some ⟨some v, .notArray⟩) st =
        (⟨st.entries, v⟩, .completed st.entries.length) ∧
      restoreFullBackupJsonFromText (some ⟨none, .array xs⟩) st =
        (⟨mergeImport st.entries xs, st.userSettings⟩,
          .completed (mergeImport st.entries xs).length) := by
  constructor
  · show ((⟨st.entries, if v.truthy then v else st.userSettings⟩ : AppState),
      RestoreOutcome.completed st.entries.length) = _
    rw [hv]
    rfl
  · rfl

theorem claim_C10_import_halves_witness :
    (JVal.str "x").truthy = true ∧
      (restoreFullBackupJsonFromText (some ⟨some (JVal.str "x"), .notArray⟩)
          ⟨[], defaultSettings⟩ =
        ((⟨[], JVal.str "x"⟩ : AppState), .completed ([] : List LogEntry).length) ∧
      restoreFullBackupJsonFromText (some ⟨none, .array []⟩)
          (⟨[], defaultSettings⟩ : AppState) =
        ((⟨mergeImport [] [], defaultSettings⟩ : AppState),
          .completed (mergeImport [] []).length)) :=
  ⟨by decide, claim_C10_import_halves ⟨[], defaultSettings⟩ (JVal.str "x") (by decide) []⟩

/-! ### Claim C8: export/import round trip -/

theorem convert_entryToImportLog (e : LogEntry) :
    convertImportLog (entryToImportLog e) e.date = e := by
  cases e with
  | mk d w a n dur =>
      cases w <;> cases dur <;> rfl

theorem mapSet_self {m : List (String × LogEntry)} {k : String} {v : LogEntry}
    (hkeys : (m.map Prod.fst).Nodup) (hmem : (k, v) ∈ m) : mapSet m k v = m := by
  unfold mapSet
  rw [if_pos ((mapSet_any_iff m k).mpr (List.mem_map_of_mem Prod.fst hmem))]
  have : ∀ p ∈ m, (if p.1 = k then (k, v) else p) = p := by
    intro p hp
    by_cases hpk : p.1 = k
    · rw [if_pos hpk]
      exact (List.inj_on_of_nodup_map hkeys hmem hp (by rw [hpk])).symm ▸ rfl
    · rw [if_neg hpk]
  rw [List.map_congr_left this]
  exact List.map_id m

theorem foldl_importStep_roundtrip (l : List LogEntry) (m : List (String × LogEntry))
    (hkeys : (m.map Prod.fst).Nodup)
    (hl : ∀ e ∈ l, e.date ≠ "" ∧ (e.date, e) ∈ m) :
    (l.map (fun e => some (entryToImportLog e))).foldl importStep m = m := by
  induction l with
  | nil => rfl
  | cons e l ih =>
      rw [List.map_cons, List.foldl_cons]
      have hstep : importStep m (some (entryToImportLog e)) = m := by
        show (if e.date = "" then m else
          mapSet m e.date (convertImportLog (entryToImportLog e) e.date)) = m
        rw [if_neg (hl e (List.mem_cons_self e l)).1, convert_entryToImportLog]
        exact mapSet_self hkeys (hl e (List.mem_cons_self e l)).2
      rw [hstep]
      exact ih (fun x hx => hl x (List.mem_cons_of_mem e hx))

/-- Claim C8 (export/import round trip): on a store satisfying I1 whose
entries carry the data-model date shape, exporting the backup envelope and
then importing the resulting payload reproduces an equivalent entry store (a
permutation, hence the same set of date-record pairs) and leaves the
settings store equal to the exported one. -/
theorem claim_C8_roundtrip (st : AppState) (ts : String)
    (hnd : (st.entries.map (fun e => e.date)).Nodup)
    (hne : ∀ e ∈ st.entries, e.date ≠ "") :
    ((restoreFullBackupJsonFromText (some (parseEnvelope (exportFullBackupJson st ts)))
        st).1.entries).Perm st.entries ∧
      (restoreFullBackupJsonFromText (some (parseEnvelope (exportFullBackupJson st ts)))
        st).1.userSettings = st.userSettings := by
  constructor
  · show (mergeImport st.entries
      (st.entries.map (fun e => some (entryToImportLog e)))).Perm st.entries
    have hmm : mergeMap st.entries (st.entries.map (fun e => some (entryToImportLog e)))
        = st.entries.map (fun e => (e.date, e)) := by
      unfold mergeMap
      rw [phase1_eq st.entries hnd]
      apply foldl_importStep_roundtrip
      · rw [List.map_map]
        have : (Prod.fst ∘ fun e => (e.date, e)) = fun (e : LogEntry) => e.date := rfl
        rw [this]
        exact hnd
      · intro e he
        exact ⟨hne e he, List.mem_map_of_mem _ he⟩
    have hperm := mergeImport_perm st.entries
      (st.entries.map (fun e => some (entryToImportLog e)))
    rw [hmm] at hperm
    have hvals : (st.entries.map (fun e => (e.date, e))).map Prod.snd = st.entries := by
      rw [List.map_map]
      have : (Prod.snd ∘ fun (e : LogEntry) => (e.date, e)) = id := rfl
      rw [this, List.map_id]
    rw [hvals] at hperm
    exact hperm
  · show (if st.userSettings.truthy then st.userSettings else st.userSettings)
      = st.userSettings
    split <;> rfl

theorem claim_C8_roundtrip_witness :
    ((([⟨"2024-01-01", some 80, "", "", none⟩, ⟨"2024-01-08", some 78, "", "", none⟩]
        : List LogEntry).map (fun e => e.date)).Nodup ∧
      (∀ e ∈ ([⟨"2024-01-01", some 80, "", "", none⟩, ⟨"2024-01-08", some 78, "", "", none⟩]
        : List LogEntry), e.date ≠ "")) ∧
      ((restoreFullBackupJsonFromText
          (some (parseEnvelope (exportFullBackupJson
            ⟨[⟨"2024-01-01", some 80, "", "", none⟩, ⟨"2024-01-08", some 78, "", "", none⟩],
              defaultSettings⟩ "2024-02-01T00:00:00Z")))
          ⟨[⟨"2024-01-01", some 80, "", "", none⟩, ⟨"2024-01-08", some 78, "", "", none⟩],
            defaultSettings⟩).1.entries).Perm
        [⟨"2024-01-01", some 80, "", "", none⟩, ⟨"2024-01-08", some 78, "", "", none⟩] :=
  ⟨⟨by decide, by decide⟩,
    (claim_C8_roundtrip
      ⟨[⟨"2024-01-01", some 80, "", "", none⟩, ⟨"2024-01-08", some 78, "", "", none⟩],
        defaultSettings⟩ "2024-02-01T00:00:00Z" (by decide) (by decide)).1⟩

/-! ### Claim C4: calorie computation -/

theorem getMetForActivity_pos (s : String) : 0 < getMetForActivity s := by
  unfold getMetForActivity
  split
  · norm_num
  · split
    · norm_num
    · split <;> norm_num

/-- The calorie computation as claim C4 words it: the weight used is the
entry weight only when it is present AND positive, otherwise the latest
weight up to the entry date.  Stated for comparison against
calculateEntryCalories, whose weight source ignores positivity. -/
def claimC4Calories (entries : List LogEntry) (entry : LogEntry) : Option ℚ :=
  match entry.durationMinutes with
  | none => none
  | some dur =>
      if dur ≤ 0 then none
      else
        match (match entry.weight with
               | some w => if 0 < w then some w
                   else getLatestWeightUpToDate entries entry.date
               | none => getLatestWeightUpToDate entries entry.date) with
        | none => none
        | some w =>
            let c := getMetForActivity entry.activityType * w * (dur / 60)
            if 0 < c then some c else none

/-- The calorie computation with the amended weight source: the entry weight
whenever it is present, regardless of sign, otherwise the latest weight up to
the entry date; the final positivity gate of the source is dropped because it
is provably redundant (theorem claim_C4_calories). -/
def claimC4AmendedCalories (entries : List LogEntry) (entry : LogEntry) : Option ℚ :=
  match entry.durationMinutes with
  | none => none
  | some dur =>
      if dur ≤ 0 then none
      else
        match (match entry.weight with
               | some w => some w
               | none => getLatestWeightUpToDate entries entry.date) with
        | none => none
        | some w =>
            if w ≤ 0 then none
            else some (getMetForActivity entry.activityType * w * (dur / 60))

/-- Counterexample to claim C4 as stated: an entry with a recorded
non-positive weight and a positive duration, over a snapshot holding an
earlier positive weight.  Under the claim wording the weight resolves through
latest-weight-up-to to 70 and the result is MET 5 x 70 x 0.5 = 175; the code
uses the recorded weight -1 and returns none. -/
theorem claim_C4_calories_counterexample :
    claimC4Calories [⟨"2024-01-01", some 70, "", "", none⟩]
        ⟨"2024-01-05", some (-1), "", "", some 30⟩ = some 175 ∧
      calculateEntryCalories [⟨"2024-01-01", some 70, "", "", none⟩]
        ⟨"2024-01-05", some (-1), "", "", some 30⟩ = none := by
  have hlatest : getLatestWeightUpToDate [⟨"2024-01-01", some 70, "", "", none⟩]
      "2024-01-05" = some 70 := by decide
  constructor
  · show (match (if (0:ℚ) < -1 then some (-1 : ℚ)
        else getLatestWeightUpToDate [⟨"2024-01-01", some 70, "", "", none⟩]
          "2024-01-05") with
      | none => none
      | some w =>
          let c := getMetForActivity "" * w * ((30 : ℚ) / 60)
          if 0 < c then some c else none) = some 175
    rw [if_neg (by norm_num), hlatest]
    show (if 0 < getMetForActivity "" * 70 * ((30:ℚ) / 60)
      then some (getMetForActivity "" * 70 * ((30:ℚ) / 60)) else none) = some 175
    have hmet : getMetForActivity "" = 5 := rfl
    rw [hmet]
    norm_num
  · show (if (30 : ℚ) ≤ 0 then none else
      if (-1 : ℚ) ≤ 0 then none else
        let c := getMetForActivity "" * (-1) * ((30 : ℚ) / 60)
        if 0 < c then some c else none) = none
    rw [if_neg (by norm_num), if_pos (by norm_num)]

/-- Claim C4 as amended: the weight used is the entry weight whenever it is
present (regardless of sign), otherwise the latest weight up to the entry
date; the result is none when the duration is absent or non-positive, when no
weight resolves, or when the resolved weight is non-positive, and otherwise
it is exactly MET x weight x duration/60 -- in particular the function never
returns zero or a negative value. -/
theorem claim_C4_calories (entries : List LogEntry) (entry : LogEntry) :
    calculateEntryCalories entries entry = claimC4AmendedCalories entries entry ∧
      ∀ c, calculateEntryCalories entries entry = some c → 0 < c := by
  have heq : calculateEntryCalories entries entry = claimC4AmendedCalories entries entry := by
    obtain ⟨dd, ww, aa, nn, dur⟩ := entry
    cases dur with
    | none => rfl
    | some dv =>
        simp only [calculateEntryCalories, claimC4AmendedCalories]
        by_cases hdur : dv ≤ 0
        · simp [hdur]
        · simp only [if_neg hdur]
          cases hw : (match ww with
              | some x => some x
              | none => getLatestWeightUpToDate entries dd : Option ℚ) with
          | none => rfl
          | some x =>
              by_cases hx : x ≤ 0
              · simp [hx]
              · have hpos : 0 < getMetForActivity aa * x * (dv / 60) :=
                  mul_pos (mul_pos (getMetForActivity_pos aa) (by linarith))
                    (div_pos (by linarith) (by norm_num))
                simp [hx, hpos]
  refine ⟨heq, ?_⟩
  intro c hc
  rw [heq] at hc
  unfold claimC4AmendedCalories at hc
  split at hc
  · cases hc
  · split at hc
    · cases hc
    · split at hc
      · cases hc
      · split at hc
        · cases hc
        · rename_i dur hdm hdur w hw hwle
          cases hc
          exact mul_pos (mul_pos (getMetForActivity_pos _) (by linarith))
            (div_pos (by linarith) (by norm_num))

/-! ### Claim C6: BMI -/

theorem getField_some_truthy {s : JVal} {k : String} {v : JVal}
    (h : s.getField k = some v) : s.truthy = true := by
  cases s <;> first
    | rfl
    | exact absurd h (by simp [JVal.getField])

theorem jsDateLt_not_le {a b : JsDate} (h : jsDateLt a b = true) :
    jsDateLe b a = false := by
  simp only [jsDateLt, decide_eq_true_eq] at h
  simp only [jsDateLe, decide_eq_false_iff_not]
  omega

theorem pairwise_getLast {α : Type} {r : α → α → Prop} :
    ∀ {L : List α} {y : α}, L.Pairwise r → L.getLast? = some y →
      ∀ z ∈ L, z = y ∨ r z y := by
  intro L
  induction L with
  | nil => intro y _ hy; cases hy
  | cons a L ih =>
      intro y hp hy z hz
      cases hL : L with
      | nil =>
          subst hL
          have : y = a := by
            rw [List.getLast?_cons] at hy
            injection hy with h2
            exact h2.symm
          rcases List.mem_singleton.mp hz with rfl
          left
          exact this.symm
      | cons b L2 =>
          have hLne : L ≠ [] := by rw [hL]; exact List.cons_ne_nil b L2
          have hyL : L.getLast? = some y := by
            rw [List.getLast?_cons] at hy
            injection hy with h2
            cases hgl : L.getLast? with
            | none => exact absurd hgl (by rw [List.getLast?_eq_getLast L hLne]; simp)
            | some u =>
                rw [hgl] at h2
                rw [← h2]
                rfl
          rcases List.mem_cons.mp hz with rfl | hzL
          · right
            exact (List.pairwise_cons.mp hp).1 y (List.mem_of_mem_getLast? hyL)
          · exact ih (List.pairwise_cons.mp hp).2 hyL z hzL

/-- The BMI sort comparator of the source. -/
def bmiLe (now : JsDate) (a b : LogEntry) : Bool :=
  jsDateLe (dateFromYMD now a.date) (dateFromYMD now b.date)

theorem bmi_sorted_getLast {now : JsDate} {l : List LogEntry} {e : LogEntry}
    (he : e ∈ l)
    (hmax : ∀ x ∈ l, x ≠ e →
      jsDateLt (dateFromYMD now x.date) (dateFromYMD now e.date) = true) :
    (l.mergeSort (bmiLe now)).getLast? = some e := by
  have hperm := List.mergeSort_perm l (bmiLe now)
  have hsorted : (l.mergeSort (bmiLe now)).Pairwise (fun a b => bmiLe now a b = true) := by
    apply List.sorted_mergeSort
    · intro a b c hab hbc
      exact jsDateLe_trans hab hbc
    · intro a b
      exact jsDateLe_total _ _
  have hne : l.mergeSort (bmiLe now) ≠ [] := by
    intro h0
    rw [← hperm.mem_iff] at he
    rw [h0] at he
    cases he
  cases hy : (l.mergeSort (bmiLe now)).getLast? with
  | none => exact absurd hy (by rw [List.getLast?_eq_getLast _ hne]; simp)
  | some y =>
      have hyl : y ∈ l := hperm.mem_iff.mp (List.mem_of_mem_getLast? hy)
      by_cases hye : y = e
      · rw [hye]
      · exfalso
        have hlty : jsDateLt (dateFromYMD now y.date) (dateFromYMD now e.date) = true :=
          hmax y hyl hye
        have hee : e ∈ l.mergeSort (bmiLe now) := hperm.mem_iff.mpr he
        rcases pairwise_getLast hsorted hy e hee with rfl | hr
        · exact hye rfl
        · have : jsDateLe (dateFromYMD now e.date) (dateFromYMD now y.date) = true := hr
          rw [jsDateLt_not_le hlty] at this
          exact Bool.false_ne_true this

/-- Claim C6 (BMI): the result is none whenever the height setting is absent,
non-numeric or non-positive, or no entry has a recorded weight; otherwise it
uses the weight of the maximum-dated weight-bearing entry and equals
weight over height-in-meters squared, with categories underweight below 18.5,
normal from 18.5 up to but excluding 25 (so exactly 18.5 is normal),
overweight from 25 up to but excluding 30, and obese from 30 on. -/
theorem claim_C6_bmi (entries : List LogEntry) (settings : JVal) (now : JsDate) :
    ((∀ h : ℚ, settings.getField "heightCm" = some (.num h) → h ≤ 0) →
        calculateCurrentBmi entries settings now = none) ∧
      (entries.filter (fun e => e.weight.isSome) = [] →
        calculateCurrentBmi entries settings now = none) ∧
      (∀ (h w : ℚ) (e : LogEntry), settings.getField "heightCm" = some (.num h) →
        0 < h →
        e ∈ entries.filter (fun x => x.weight.isSome) → e.weight = some w →
        (∀ x ∈ entries.filter (fun x => x.weight.isSome), x ≠ e →
          jsDateLt (dateFromYMD now x.date) (dateFromYMD now e.date) = true) →
        ∃ b cat, calculateCurrentBmi entries settings now = some (b, cat) ∧
          b = w / (h / 100) ^ 2 ∧
          (b < 18.5 → cat = "תת־משקל") ∧
          (18.5 ≤ b → b < 25 → cat = "טווח תקין") ∧
          (25 ≤ b → b < 30 → cat = "עודף משקל") ∧
          (30 ≤ b → cat = "השמנה")) := by
  refine ⟨?_, ?_, ?_⟩
  · intro hh
    unfold calculateCurrentBmi
    split
    · rfl
    · split
      · rfl
      · cases hf : settings.getField "heightCm" with
        | none => rfl
        | some v =>
            cases v with
            | num h => simp [hf, hh h hf]
            | null => rfl
            | bool b => rfl
            | str s => rfl
            | arr xs => rfl
            | obj fields => rfl
  · intro hfil
    unfold calculateCurrentBmi
    split
    · rfl
    · split
      · rfl
      · cases hf : settings.getField "heightCm" with
        | none => rfl
        | some v =>
            cases v with
            | num h =>
                simp [hf, hfil]
            | null => rfl
            | bool b => rfl
            | str s => rfl
            | arr xs => rfl
            | obj fields => rfl
  · intro h w e hf hpos he hw hmax
    have hentne : entries ≠ [] := by
      intro h0
      rw [h0] at he
      cases he
    have htruthy := getField_some_truthy hf
    have hfilne : entries.filter (fun x => x.weight.isSome) ≠ [] := by
      intro h0
      rw [h0] at he
      cases he
    have hlast : ((entries.filter (fun x => x.weight.isSome)).mergeSort
        (bmiLe now)).getLast? = some e := bmi_sorted_getLast he hmax
    unfold calculateCurrentBmi
    rw [if_neg hentne, if_neg (by rw [htruthy]; exact not_not_intro rfl)]
    simp only [hf]
    rw [if_neg (by linarith), if_neg hfilne]
    have hcomp : (fun (a b : LogEntry) =>
        jsDateLe (dateFromYMD now a.date) (dateFromYMD now b.date)) = bmiLe now := rfl
    rw [hcomp, hlast]
    simp only [hw]
    refine ⟨w / (h / 100 * (h / 100)), _, rfl, by ring, ?_, ?_, ?_, ?_⟩
    · intro hb
      rw [if_pos hb]
    · intro hb1 hb2
      rw [if_neg (by linarith), if_pos hb2]
    · intro hb1 hb2
      rw [if_neg (by linarith), if_neg (by linarith), if_pos hb2]
    · intro hb
      rw [if_neg (by linarith), if_neg (by linarith), if_neg (by linarith)]

theorem claim_C6_bmi_witness :
    ((JVal.obj [("heightCm", JVal.num 175)]).getField "heightCm"
        = some (JVal.num 175) ∧ (0 : ℚ) < 175 ∧
      (⟨"2024-03-15", some 70, "", "", none⟩ : LogEntry) ∈
        ([⟨"2024-03-15", some 70, "", "", none⟩] : List LogEntry).filter
          (fun x => x.weight.isSome)) ∧
      ∃ b cat,
        calculateCurrentBmi [⟨"2024-03-15", some 70, "", "", none⟩]
            (JVal.obj [("heightCm", JVal.num 175)]) ⟨2024, 3, 15⟩ = some (b, cat) ∧
          b = 70 / ((175 : ℚ) / 100) ^ 2 ∧
          (b < 18.5 → cat = "תת־משקל") ∧
          (18.5 ≤ b → b < 25 → cat = "טווח תקין") ∧
          (25 ≤ b → b < 30 → cat = "עודף משקל") ∧
          (30 ≤ b → cat = "השמנה") :=
  ⟨⟨rfl, by norm_num, by decide⟩,
    (claim_C6_bmi [⟨"2024-03-15", some 70, "", "", none⟩]
      (JVal.obj [("heightCm", JVal.num 175)]) ⟨2024, 3, 15⟩).2.2 175 70
      ⟨"2024-03-15", some 70, "", "", none⟩ rfl (by norm_num) (by decide) rfl
      (by
        intro x hx hxe
        exfalso
        apply hxe
        have : x ∈ ([⟨"2024-03-15", some 70, "", "", none⟩] : List LogEntry) :=
          List.mem_of_mem_filter hx
        exact List.mem_singleton.mp this)⟩

/-! ### Claim C5: streak -/

theorem jsDateLe_refl (a : JsDate) : jsDateLe a a = true := by
  simp [jsDateLe]

/-- The while loop computes the length of the run of consecutive prior days
present in the date set, provided the first gap is reached within the fuel. -/
theorem streakLoop_eq (dates : List String) :
    ∀ (n : ℕ) (c : JsDate) (fuel : ℕ), n + 1 ≤ fuel →
      (∀ j, 1 ≤ j → j ≤ n → formatDateToYMD (prevDay^[j] c) ∈ dates) →
      formatDateToYMD (prevDay^[n + 1] c) ∉ dates →
      streakLoop dates c fuel = n := by
  intro n
  induction n with
  | zero =>
      intro c fuel hfuel hruns hstop
      cases fuel with
      | zero => omega
      | succ f =>
          show (if formatDateToYMD (prevDay c) ∈ dates
            then streakLoop dates (prevDay c) f + 1 else 0) = 0
          rw [if_neg (by simpa using hstop)]
  | succ n ih =>
      intro c fuel hfuel hruns hstop
      cases fuel with
      | zero => omega
      | succ f =>
          show (if formatDateToYMD (prevDay c) ∈ dates
            then streakLoop dates (prevDay c) f + 1 else 0) = n + 1
          rw [if_pos (by simpa using hruns 1 (by omega) (by omega))]
          have hres : streakLoop dates (prevDay c) f = n := by
            apply ih (prevDay c) f (by omega)
            · intro j hj1 hjn
              rw [← Function.iterate_succ_apply]
              exact hruns (j + 1) (by omega) (by omega)
            · rw [← Function.iterate_succ_apply]
              exact hstop
          rw [hres]

theorem iterate_prevDay_lt (c : JsDate) : ∀ j, 1 ≤ j →
    jsDateLt (prevDay^[j] c) c = true := by
  intro j
  induction j with
  | zero => omega
  | succ j ih =>
      intro _
      rw [Function.iterate_succ_apply']
      by_cases hj : 1 ≤ j
      · exact jsDateLt_trans (prevDay_lt (prevDay^[j] c)) (ih hj)
      · have : j = 0 := by omega
        subst this
        exact prevDay_lt c

theorem iterate_prevDay_lt_of_lt (c : JsDate) {j k : ℕ} (hjk : j < k) :
    jsDateLt (prevDay^[k] c) (prevDay^[j] c) = true := by
  have : prevDay^[k] c = prevDay^[k - j] (prevDay^[j] c) := by
    rw [← Function.iterate_add_apply]
    congr 1
    omega
  rw [this]
  exact iterate_prevDay_lt (prevDay^[j] c) (k - j) (by omega)

/-- Within as many backward steps as there are distinct dates, some day is
missing from a duplicate-free set of canonical date strings containing the
start. -/
theorem exists_streak_stop (dates : List String) (hnd : dates.Nodup)
    (hcanon : ∀ s ∈ dates, canonicalYmd s) (m0 : String) (hm0 : m0 ∈ dates) :
    ∃ j, 1 ≤ j ∧ j ≤ dates.length ∧
      formatDateToYMD (prevDay^[j] (parseYmd m0)) ∉ dates := by
  by_contra hall
  push_neg at hall
  have hmem : ∀ j, 1 ≤ j → j ≤ dates.length →
      formatDateToYMD (prevDay^[j] (parseYmd m0)) ∈ dates := by
    intro j h1 h2
    exact hall j h1 h2
  have hinv : ∀ j, 1 ≤ j → j ≤ dates.length →
      prevDay^[j] (parseYmd m0) =
        parseYmd (formatDateToYMD (prevDay^[j] (parseYmd m0))) := by
    intro j h1 h2
    exact (canonical_format_inv (hcanon _ (hmem j h1 h2)) rfl).1
  have hginj : Set.InjOn (fun j => formatDateToYMD (prevDay^[j] (parseYmd m0)))
      (Finset.Icc 1 dates.length) := by
    intro j hj k hk hjk
    simp only [Finset.coe_Icc, Set.mem_Icc] at hj hk
    by_contra hne
    have hjk2 : formatDateToYMD (prevDay^[j] (parseYmd m0))
        = formatDateToYMD (prevDay^[k] (parseYmd m0)) := hjk
    have hit : prevDay^[j] (parseYmd m0) = prevDay^[k] (parseYmd m0) := by
      rw [hinv j hj.1 hj.2, hinv k hk.1 hk.2, hjk2]
    rcases Nat.lt_or_ge j k with h | h
    · exact jsDateLt_asymm (iterate_prevDay_lt_of_lt (parseYmd m0) h) hit.symm
    · have hlt : k < j := by omega
      exact jsDateLt_asymm (iterate_prevDay_lt_of_lt (parseYmd m0) hlt) hit
  have hgne : ∀ j, 1 ≤ j → j ≤ dates.length →
      formatDateToYMD (prevDay^[j] (parseYmd m0)) ≠ m0 := by
    intro j h1 h2 heq
    have hit : prevDay^[j] (parseYmd m0) = parseYmd m0 := by
      rw [hinv j h1 h2, heq]
    exact jsDateLt_asymm (iterate_prevDay_lt (parseYmd m0) j h1) hit
  have hsub : (Finset.Icc 1 dates.length).image
      (fun j => formatDateToYMD (prevDay^[j] (parseYmd m0))) ⊆
        dates.toFinset.erase m0 := by
    intro s hs
    rcases Finset.mem_image.mp hs with ⟨j, hj, hje⟩
    rw [Finset.mem_Icc] at hj
    rw [Finset.mem_erase]
    constructor
    · rw [← hje]
      exact hgne j hj.1 hj.2
    · rw [List.mem_toFinset, ← hje]
      exact hmem j hj.1 hj.2
  have hcard1 : ((Finset.Icc 1 dates.length).image
      (fun j => formatDateToYMD (prevDay^[j] (parseYmd m0)))).card = dates.length := by
    rw [Finset.card_image_of_injOn hginj, Nat.card_Icc]
    omega
  have hcard2 : (dates.toFinset.erase m0).card = dates.length - 1 := by
    rw [Finset.card_erase_of_mem (List.mem_toFinset.mpr hm0),
      List.toFinset_card_of_nodup hnd]
  have hlen : 1 ≤ dates.length := by
    cases dates with
    | nil => cases hm0
    | cons a l => simp
  have := Finset.card_le_card hsub
  rw [hcard1, hcard2] at this
  omega

theorem uniqueDatesOf_ne_nil {entries : List LogEntry} (hne : entries ≠ []) :
    uniqueDatesOf entries ≠ [] := by
  cases entries with
  | nil => exact absurd rfl hne
  | cons e l =>
      intro h0
      have : e.date ∈ uniqueDatesOf (e :: l) :=
        List.mem_dedup.mpr (List.mem_map_of_mem _ (List.mem_cons_self e l))
      rw [h0] at this
      cases this

theorem mostRecent_spec (entries : List LogEntry) (now : JsDate) (hne : entries ≠ []) :
    mostRecentLogDate entries now ∈ uniqueDatesOf entries ∧
      ∀ s ∈ uniqueDatesOf entries,
        jsDateLe (dateFromYMD now s) (dateFromYMD now (mostRecentLogDate entries now))
          = true := by
  have hperm := List.mergeSort_perm (uniqueDatesOf entries)
    (fun a b => jsDateLe (dateFromYMD now b) (dateFromYMD now a))
  have hsne : (uniqueDatesOf entries).mergeSort
      (fun a b => jsDateLe (dateFromYMD now b) (dateFromYMD now a)) ≠ [] := by
    intro h0
    exact uniqueDatesOf_ne_nil hne (List.Perm.nil_eq (h0 ▸ hperm)).symm
  have hsorted : ((uniqueDatesOf entries).mergeSort
      (fun a b => jsDateLe (dateFromYMD now b) (dateFromYMD now a))).Pairwise
        (fun a b => jsDateLe (dateFromYMD now b) (dateFromYMD now a) = true) := by
    apply List.sorted_mergeSort
    · intro a b c hab hbc
      exact jsDateLe_trans hbc hab
    · intro a b
      rw [Bool.or_comm]
      exact jsDateLe_total _ _
  cases hs : (uniqueDatesOf entries).mergeSort
      (fun a b => jsDateLe (dateFromYMD now b) (dateFromYMD now a)) with
  | nil => exact absurd hs hsne
  | cons h t =>
      have hhead : mostRecentLogDate entries now = h := by
        unfold mostRecentLogDate
        rw [hs]
        rfl
      rw [hs] at hperm hsorted
      constructor
      · rw [hhead]
        exact hperm.mem_iff.mp (List.mem_cons_self h t)
      · intro s hsmem
        rw [hhead]
        rcases List.mem_cons.mp (hperm.mem_iff.mpr hsmem) with rfl | hst
        · exact jsDateLe_refl _
        · exact (List.pairwise_cons.mp hsorted).1 s hst

/-- Claim C5 (streak): for a nonempty store of canonical ISO dates there is a
most-recent date m0 (maximal by parsed date among the entry dates); the
streak is 0 when m0 is neither today nor yesterday, and otherwise it is 1
plus the number of consecutive prior calendar days, counting back from m0,
whose date string appears among the entry dates, stopping at the first gap. -/
theorem claim_C5_streak (entries : List LogEntry) (now : JsDate)
    (hne : entries ≠ [])
    (hcanon : ∀ s ∈ entries.map (fun e => e.date), canonicalYmd s) :
    ∃ m0, m0 ∈ entries.map (fun e => e.date) ∧
      (∀ s ∈ entries.map (fun e => e.date),
        jsDateLe (parseYmd s) (parseYmd m0) = true) ∧
      (m0 ≠ formatDateToYMD now ∧ m0 ≠ formatDateToYMD (prevDay now) →
        calculateCurrentStreak entries now = 0) ∧
      ((m0 = formatDateToYMD now ∨ m0 = formatDateToYMD (prevDay now)) →
        ∃ n, calculateCurrentStreak entries now = n + 1 ∧
          (∀ j, 1 ≤ j → j ≤ n →
            formatDateToYMD (prevDay^[j] (parseYmd m0)) ∈
              entries.map (fun e => e.date)) ∧
          formatDateToYMD (prevDay^[n + 1] (parseYmd m0)) ∉
            entries.map (fun e => e.date)) := by
  obtain ⟨hm0mem, hm0max⟩ := mostRecent_spec entries now hne
  have hcanonu : ∀ s ∈ uniqueDatesOf entries, canonicalYmd s := fun s hs =>
    hcanon s (List.mem_dedup.mp hs)
  have hm0dates : mostRecentLogDate entries now ∈ entries.map (fun e => e.date) :=
    List.mem_dedup.mp hm0mem
  have hm0parse : dateFromYMD now (mostRecentLogDate entries now)
      = parseYmd (mostRecentLogDate entries now) := by
    unfold dateFromYMD
    rw [if_neg (canonical_ne_empty (hcanon _ hm0dates))]
  have hmax2 : ∀ s ∈ entries.map (fun e => e.date),
      jsDateLe (parseYmd s) (parseYmd (mostRecentLogDate entries now)) = true := by
    intro s hs
    have h1 := hm0max s (List.mem_dedup.mpr hs)
    rw [hm0parse] at h1
    unfold dateFromYMD at h1
    rw [if_neg (canonical_ne_empty (hcanon s hs))] at h1
    exact h1
  refine ⟨mostRecentLogDate entries now, hm0dates, hmax2, ?_, ?_⟩
  · intro hguard
    unfold calculateCurrentStreak
    rw [if_neg hne]
    show (if mostRecentLogDate entries now ≠ formatDateToYMD now ∧
        mostRecentLogDate entries now ≠ formatDateToYMD (prevDay now) then 0
      else streakLoop (uniqueDatesOf entries)
        (dateFromYMD now (mostRecentLogDate entries now))
        (uniqueDatesOf entries).length + 1) = 0
    rw [if_pos hguard]
  · intro hguard
    obtain ⟨j0, hj1, hjF, hjstop⟩ := exists_streak_stop (uniqueDatesOf entries)
      (List.nodup_dedup _) hcanonu (mostRecentLogDate entries now) hm0mem
    have hex : ∃ j, 1 ≤ j ∧
        formatDateToYMD (prevDay^[j] (parseYmd (mostRecentLogDate entries now))) ∉
          uniqueDatesOf entries := ⟨j0, hj1, hjstop⟩
    have hPf := Nat.find_spec hex
    have hjfle : Nat.find hex ≤ j0 := Nat.find_le ⟨hj1, hjstop⟩
    have hjf1 : 1 ≤ Nat.find hex := hPf.1
    refine ⟨Nat.find hex - 1, ?_, ?_, ?_⟩
    · unfold calculateCurrentStreak
      rw [if_neg hne]
      show (if mostRecentLogDate entries now ≠ formatDateToYMD now ∧
          mostRecentLogDate entries now ≠ formatDateToYMD (prevDay now) then 0
        else streakLoop (uniqueDatesOf entries)
          (dateFromYMD now (mostRecentLogDate entries now))
          (uniqueDatesOf entries).length + 1) = Nat.find hex - 1 + 1
      rw [if_neg (by
        rcases hguard with h | h
        · intro hcon
          exact hcon.1 h
        · intro hcon
          exact hcon.2 h)]
      rw [hm0parse]
      have hloop : streakLoop (uniqueDatesOf entries)
          (parseYmd (mostRecentLogDate entries now))
          (uniqueDatesOf entries).length = Nat.find hex - 1 := by
        apply streakLoop_eq
        · omega
        · intro j hj1j hjn
          have hnotP := Nat.find_min hex (show j < Nat.find hex by omega)
          by_contra hnotmem
          exact hnotP ⟨hj1j, hnotmem⟩
        · have hrw : Nat.find hex - 1 + 1 = Nat.find hex := by omega
          rw [hrw]
          exact hPf.2
      rw [hloop]
    · intro j hj1j hjn
      have hnotP := Nat.find_min hex (show j < Nat.find hex by omega)
      by_contra hnotmem
      exact hnotP ⟨hj1j, fun hmem => hnotmem (List.mem_dedup.mp hmem)⟩
    · have hrw : Nat.find hex - 1 + 1 = Nat.find hex := by omega
      rw [hrw]
      intro hmem
      exact hPf.2 (List.mem_dedup.mpr hmem)

theorem claim_C5_streak_witness :
    (([⟨"2024-03-15", none, "", "", none⟩, ⟨"2024-03-14", none, "", "", none⟩,
        ⟨"2024-03-13", none, "", "", none⟩] : List LogEntry) ≠ [] ∧
      (∀ s ∈ ([⟨"2024-03-15", none, "", "", none⟩, ⟨"2024-03-14", none, "", "", none⟩,
        ⟨"2024-03-13", none, "", "", none⟩] : List LogEntry).map (fun e => e.date),
        canonicalYmd s)) ∧
      ∃ m0, m0 ∈ ([⟨"2024-03-15", none, "", "", none⟩, ⟨"2024-03-14", none, "", "", none⟩,
          ⟨"2024-03-13", none, "", "", none⟩] : List LogEntry).map (fun e => e.date) ∧
        (∀ s ∈ ([⟨"2024-03-15", none, "", "", none⟩, ⟨"2024-03-14", none, "", "", none⟩,
          ⟨"2024-03-13", none, "", "", none⟩] : List LogEntry).map (fun e => e.date),
          jsDateLe (parseYmd s) (parseYmd m0) = true) ∧
        (m0 ≠ formatDateToYMD ⟨2024, 3, 15⟩ ∧
            m0 ≠ formatDateToYMD (prevDay ⟨2024, 3, 15⟩) →
          calculateCurrentStreak [⟨"2024-03-15", none, "", "", none⟩,
            ⟨"2024-03-14", none, "", "", none⟩, ⟨"2024-03-13", none, "", "", none⟩]
            ⟨2024, 3, 15⟩ = 0) ∧
        ((m0 = formatDateToYMD ⟨2024, 3, 15⟩ ∨
            m0 = formatDateToYMD (prevDay ⟨2024, 3, 15⟩)) →
          ∃ n, calculateCurrentStreak [⟨"2024-03-15", none, "", "", none⟩,
              ⟨"2024-03-14", none, "", "", none⟩, ⟨"2024-03-13", none, "", "", none⟩]
              ⟨2024, 3, 15⟩ = n + 1 ∧
            (∀ j, 1 ≤ j → j ≤ n →
              formatDateToYMD (prevDay^[j] (parseYmd m0)) ∈
                ([⟨"2024-03-15", none, "", "", none⟩, ⟨"2024-03-14", none, "", "", none⟩,
                  ⟨"2024-03-13", none, "", "", none⟩] : List LogEntry).map
                    (fun e => e.date)) ∧
            formatDateToYMD (prevDay^[n + 1] (parseYmd m0)) ∉
              ([⟨"2024-03-15", none, "", "", none⟩, ⟨"2024-03-14", none, "", "", none⟩,
                ⟨"2024-03-13", none, "", "", none⟩] : List LogEntry).map
                  (fun e => e.date)) :=
  ⟨⟨by decide, by decide⟩,
    claim_C5_streak [⟨"2024-03-15", none, "", "", none⟩,
      ⟨"2024-03-14", none, "", "", none⟩, ⟨"2024-03-13", none, "", "", none⟩]
      ⟨2024, 3, 15⟩ (by decide) (by decide)⟩
